import Mathlib

/-
Verification of the core of `slack_history.py`: paginated history retrieval
(`getHistory`), timestamp decoding (`parseTimeStamp`), day-partitioned archival
writing (`parseMessages` / `writeMessageFile`) and directory relocation on
channel renames (`channelRename`).

Modelling conventions:
* Python strings are Lean `String`s; character-level processing (`split`,
  membership) works on the underlying `List Char`.
* Filesystem paths are component lists (`List String`); the script only ever
  builds paths by joining slash-free components with `'/'`, so
  `os.path.dirname` is `List.dropLast` and `'{a}/{b}'.format` is list append.
* The filesystem is a pair of a directory set and an association list from
  (directory, file name) to file contents; operations that can raise in Python
  (`os.rmdir` on a non-empty directory, a `KeyError` on a missing dict field,
  a `ValueError`/`TypeError` out of timestamp handling) return `Except`.
* The remote history endpooint is modelled as a black box holding the full
  newest-first message list with pairwise-distinct timestamps; a request with
  cursor `latest` returns up to `count` messages strictly older than the
  cursor and reports `has_more` exactly when older messages remain.  A second,
  response-stream model (`getHistoryFromPages`) feeds an arbitrary page
  sequence to the same loop for the reachability analysis of the
  `messages[-1]` access.
* The pagination loop and nothing else is given explicit fuel, standing for
  the a-priori unbounded iteration of the Python `while True`.
-/

namespace SlackHistory

/-! ## Timestamp codec (`parseTimeStamp`) -/

/-- Models Python `str.split(sep)` for a one-character separator:
empty parts are kept, and a string without the separator yields itself. -/
def splitOnChar (c : Char) : List Char → List (List Char)
  | [] => [[]]
  | x :: xs =>
    if x = c then [] :: splitOnChar c xs
    else
      match splitOnChar c xs with
      | [] => [[x]]
      | y :: ys => (x :: y) :: ys

/-- Digits of a decimal numeral to its value; `Option.none` unless the
character list is a non-empty run of decimal digits. -/
def digitsToNat (s : List Char) : Option Nat :=
  if s ≠ [] ∧ s.all (fun c => c.isDigit) then
    some (s.foldl (fun a c => a * 10 + (c.toNat - 48)) 0)
  else
    Option.none

/-- Models Python `float(s)` applied to the seconds part of a timestamp (a
string without `'.'`): an optional sign followed by decimal digits, valued as
an integer (such seconds values are integral and exactly representable).
Exotic float syntax (exponents, `inf`, `nan`, underscores, whitespace) is not
modelled; the inputs exercised here are digit runs or alphabetic garbage. -/
def pyFloat (s : List Char) : Option Int :=
  match s with
  | '-' :: rest => (digitsToNat rest).map (fun n => -(n : Int))
  | '+' :: rest => (digitsToNat rest).map (fun n => (n : Int))
  | _ => (digitsToNat s).map (fun n => (n : Int))

/-- Outcome of `parseTimeStamp`: the explicit `raise ValueError` and the
`ValueError` out of `float()` are `malformed`; a timestamp without `'.'`
falls off the end of the function and returns Python `None`, which is
`noneResult`; otherwise `datetime.utcfromtimestamp` yields an instant,
kept as whole seconds since the epoch. -/
inductive TsResult where
  | malformed : TsResult
  | noneResult : TsResult
  | instant : Int → TsResult
deriving DecidableEq, Repr

/-- `parseTimeStamp` on the character list of the timestamp string:
`if '.' in timeStamp: t_list = timeStamp.split('.');
if len(t_list) != 2: raise ValueError else:
return datetime.utcfromtimestamp(float(t_list[0]))`. -/
def parseTimeStampL (s : List Char) : TsResult :=
  if '.' ∈ s then
    let t_list := splitOnChar '.' s
    if t_list.length ≠ 2 then TsResult.malformed
    else
      match pyFloat (t_list.headD []) with
      | Option.none => TsResult.malformed
      | Option.some v => TsResult.instant v
  else TsResult.noneResult

/-- `parseTimeStamp` on a Lean `String`. -/
def parseTimeStamp (s : String) : TsResult :=
  parseTimeStampL s.data

/-- Proleptic-Gregorian civil date from days since 1970-01-01 (the standard
`civil_from_days` algorithm), as used by `datetime.utcfromtimestamp`. -/
def civilFromDays (z0 : Int) : Int × Nat × Nat :=
  let z : Int := z0 + 719468
  let era : Int := Int.fdiv z 146097
  let doe : Nat := (z - era * 146097).toNat
  let yoe : Nat := (doe - doe / 1460 + doe / 36524 - doe / 146096) / 365
  let doy : Nat := doe - (365 * yoe + yoe / 4 - yoe / 100)
  let mp : Nat := (5 * doy + 2) / 153
  let d : Nat := doy - (153 * mp + 2) / 5 + 1
  let m : Nat := if mp < 10 then mp + 3 else mp - 9
  let y : Int := era * 400 + (yoe : Int) + (if m ≤ 2 then 1 else 0)
  (y, m, d)

/-- Left-pad with `'0'` to the given width, as `%Y` / `%m` / `%d` do. -/
def zeroPad (w : Nat) (s : String) : String :=
  String.mk (List.replicate (w - s.length) '0') ++ s

/-- `'{:%Y-%m-%d}'.format(datetime.utcfromtimestamp(t))`: the UTC day key of
an instant of `t` whole seconds since the epoch. -/
def formatDay (t : Int) : String :=
  let ymd := civilFromDays (Int.fdiv t 86400)
  zeroPad 4 (toString ymd.1.toNat) ++ "-" ++
    (zeroPad 2 (toString ymd.2.1) ++ "-" ++ zeroPad 2 (toString ymd.2.2))

/-- The day key a timestamp string decodes to, when it decodes at all. -/
def tsDayKey (s : String) : Option String :=
  match parseTimeStamp s with
  | TsResult.instant t => some (formatDay t)
  | _ => Option.none

/-! ## History fetch (`getHistory`), concrete endpoint model -/

/-- A retrieved message as far as the fetch loop observes it: its timestamp
(cursor key) plus an opaque payload distinguishing it from others. -/
structure FMsg where
  ts : Nat
  payload : Nat
deriving DecidableEq, Repr

/-- One `history(channel, latest, oldest=0, count)` call against a
conversation whose full history is `hist`, newest first: the reply holds the
newest `count` messages strictly older than the cursor (`latest = none` means
no upper bound, as at the first request), and `has_more` holds exactly when
older messages remain beyond the returned page. -/
def pageOf (hist : List FMsg) (latest : Option Nat) (count : Nat) :
    List FMsg × Bool :=
  let rem := match latest with
    | Option.none => hist
    | Option.some t => hist.filter (fun m => m.ts < t)
  (rem.take count, decide (count < rem.length))

inductive FetchErr where
  | fuelOut : FetchErr
  | indexError : FetchErr
deriving DecidableEq, Repr

/-- The `while True` loop of `getHistory`: extend the accumulator with the
page, then either stop (`has_more` false) or set the cursor to
`messages[-1]['ts']` — an `IndexError` if the accumulator is empty — and
loop.  Also counts the requests issued.  `fuel` bounds the iterations of the
otherwise unbounded loop. -/
def getHistoryLoop (hist : List FMsg) (pageSize : Nat) :
    Nat → List FMsg → Option Nat → Nat → Except FetchErr (List FMsg × Nat)
  | 0, _, _, _ => Except.error FetchErr.fuelOut
  | fuel + 1, acc, latest, reqs =>
    let pr := pageOf hist latest pageSize
    let acc2 := acc ++ pr.1
    if pr.2 then
      match acc2.getLast? with
      | Option.none => Except.error FetchErr.indexError
      | Option.some m => getHistoryLoop hist pageSize fuel acc2 (some m.ts) (reqs + 1)
    else Except.ok (acc2, reqs + 1)

/-- `getHistory(pageableObject, channelId, pageSize)` against the endpoint
model: `messages = []`, `lastTimestamp = None`, then the loop. -/
def getHistory (hist : List FMsg) (pageSize : Nat) (fuel : Nat) :
    Except FetchErr (List FMsg × Nat) :=
  getHistoryLoop hist pageSize fuel [] Option.none 0

/-! ## History fetch, generic response-stream model -/

/-- One endpoint response as the loop sees it, with no assumption tying it to
a server state: a message list and the `has_more` flag. -/
structure GPage where
  messages : List FMsg
  has_more : Bool
deriving DecidableEq, Repr

inductive GFetchErr where
  | indexError : GFetchErr
  | streamEnded : GFetchErr
deriving DecidableEq, Repr

/-- The same loop body run against an arbitrary finite stream of responses
(consumed in order; `streamEnded` stands for the loop still running when the
modelled stream has no further responses to offer). -/
def getHistoryFromPagesLoop : List FMsg → List GPage → Except GFetchErr (List FMsg)
  | _, [] => Except.error GFetchErr.streamEnded
  | acc, p :: rest =>
    let acc2 := acc ++ p.messages
    if p.has_more then
      match acc2.getLast? with
      | Option.none => Except.error GFetchErr.indexError
      | Option.some _ => getHistoryFromPagesLoop acc2 rest
    else Except.ok acc2

def getHistoryFromPages (pages : List GPage) : Except GFetchErr (List FMsg) :=
  getHistoryFromPagesLoop [] pages

/-! ## Messages and the filesystem model -/

/-- A message as `parseMessages` observes it: the required `ts` field and the
optional `subtype` / `name` / `old_name` fields of the Python dict. -/
structure Msg where
  ts : String
  subtype : Option String
  name : Option String
  old_name : Option String
deriving DecidableEq, Repr

/-- A path, as its slash-free components. -/
abbrev FsPath := List String

/-- The filesystem: the set of existing directories and an association list
from (directory, file name) to contents (every file the script writes is a
JSON-serialized message list). -/
structure FS where
  dirs : List FsPath
  files : List (FsPath × String × List Msg)
deriving DecidableEq, Repr

/-- `os.path.isdir`. -/
def isdir (fs : FS) (d : FsPath) : Bool :=
  decide (d ∈ fs.dirs)

/-- The non-empty proper-and-improper prefixes of a path: the directories
`os.makedirs` brings into existence. -/
def ancestors (p : FsPath) : List FsPath :=
  (List.range p.length).map (fun i => p.take (i + 1))

/-- `mkdir(directory)`: `if not os.path.isdir(directory): os.makedirs(directory)`. -/
def mkdir (fs : FS) (d : FsPath) : FS :=
  if isdir fs d then fs
  else { fs with dirs := fs.dirs ++ (ancestors d).filter (fun q => ¬ q ∈ fs.dirs) }

/-- The entry is the file `f` of directory `d`. -/
def keyIs (d : FsPath) (f : String) (e : FsPath × String × List Msg) : Bool :=
  decide (e.1 = d ∧ e.2.1 = f)

/-- Contents of the file `f` in directory `d`, if it exists. -/
def lookupFile (fs : FS) (d : FsPath) (f : String) : Option (List Msg) :=
  (fs.files.find? (keyIs d f)).map (fun e => e.2.2)

/-- Create or wholly overwrite a file (`open(fileName, 'w')` + `json.dump`). -/
def setFile (fs : FS) (d : FsPath) (f : String) (c : List Msg) : FS :=
  { fs with files := (d, f, c) :: fs.files.filter (fun e => ! keyIs d f e) }

/-- Delete a file. -/
def eraseFile (fs : FS) (d : FsPath) (f : String) : FS :=
  { fs with files := fs.files.filter (fun e => ! keyIs d f e) }

/-- The file entries that live in directory `d`. -/
def filesIn (fs : FS) (d : FsPath) : List (FsPath × String × List Msg) :=
  fs.files.filter (fun e => decide (e.1 = d))

/-- `os.listdir(d)` (the script's directories contain only files). -/
def listdir (fs : FS) (d : FsPath) : List String :=
  (filesIn fs d).map (fun e => e.2.1)

/-- `os.rmdir` once known empty: drop the directory entry. -/
def rmdirDirs (fs : FS) (d : FsPath) : FS :=
  { fs with dirs := fs.dirs.filter (fun q => ¬ q = d) }

inductive FsErr where
  /-- `shutil.move` with a missing source. -/
  | moveMissing : FsErr
  /-- `shutil.Error` out of `shutil.move` into a directory destination when
  the destination path `dst/f` already exists. -/
  | moveClash : FsErr
  /-- `os.rmdir` on a non-empty directory. -/
  | rmdirNonEmpty : FsErr
  /-- `message['name']` / `message['old_name']` on a dict without the key. -/
  | keyError : FsErr
  /-- the explicit `raise ValueError('Invalid time stamp')` or the
  `ValueError` out of `float()`, propagating out of `parseTimeStamp`. -/
  | valueError : FsErr
  /-- `'{:%Y-%m-%d}'.format(None)` when `parseTimeStamp` returned `None`. -/
  | typeError : FsErr
deriving DecidableEq, Repr

/-- `shutil.move(os.path.join(src, f), dst)` for a file `f` into the
directory `dst`: since the destination is a directory, `shutil.move`
computes `real_dst = dst/f` and raises `shutil.Error` if that path already
exists; otherwise the file is relocated. -/
def moveFile (fs : FS) (src : FsPath) (f : String) (dst : FsPath) :
    Except FsErr FS :=
  match lookupFile fs src f with
  | Option.none => Except.error FsErr.moveMissing
  | Option.some c =>
    match lookupFile fs dst f with
    | Option.some _ => Except.error FsErr.moveClash
    | Option.none => Except.ok (setFile (eraseFile fs src f) dst f c)

/-- `for fileName in os.listdir(oldRoomName): shutil.move(...)` over a
snapshot of the names. -/
def moveAll (src dst : FsPath) : FS → List String → Except FsErr FS
  | fs, [] => Except.ok fs
  | fs, f :: rest =>
    match moveFile fs src f dst with
    | Except.error e => Except.error e
    | Except.ok fs2 => moveAll src dst fs2 rest

/-- `channelRename(oldRoomName, newRoomName)`: return early unless
`oldRoomName` is a directory; `mkdir(newRoomName)`; move every listed entry;
`os.rmdir(oldRoomName)` (an error unless now empty). -/
def channelRename (oldRoomName newRoomName : FsPath) (fs : FS) :
    Except FsErr FS :=
  if ¬ isdir fs oldRoomName then Except.ok fs
  else
    let fs1 := mkdir fs newRoomName
    match moveAll oldRoomName newRoomName fs1 (listdir fs1 oldRoomName) with
    | Except.error e => Except.error e
    | Except.ok fs2 =>
      if (filesIn fs2 oldRoomName).isEmpty then Except.ok (rmdirDirs fs2 oldRoomName)
      else Except.error FsErr.rmdirNonEmpty

/-- `writeMessageFile(fileName, messages)`: `directory = os.path.dirname(fileName)`,
`mkdir` it if missing, then write the serialized message list. -/
def writeMessageFile (fs : FS) (fileName : FsPath) (messages : List Msg) : FS :=
  let directory := fileName.dropLast
  let fs1 := if ¬ isdir fs directory then mkdir fs directory else fs
  setFile fs1 directory (fileName.getLastD "") messages

/-! ## Day partitioning (`parseMessages`) -/

/-- One flush performed by `parseMessages`: the directory written into, the
day key naming the file (`{file}.json`), and the bucket contents.  Recorded
alongside the filesystem effect so that write order and bucket contents can
be stated directly. -/
structure WriteEv where
  dir : FsPath
  date : String
  contents : List Msg
deriving DecidableEq, Repr

/-- The loop of `parseMessages` over the remaining messages, carrying
`currentFileDate`, `currentMessages` and the (rename-mutable) `roomDir`.
Each flush writes `'{parent}/{room}/{file}.json'` and is recorded as a
`WriteEv`; the trailing flush after the loop is the base case. -/
def parseLoop (parentDir roomType nameChangeFlag : String) :
    List Msg → String → List Msg → String → FS → Except FsErr (FS × List WriteEv)
  | [], currentFileDate, currentMessages, roomDir, fs =>
    Except.ok
      (writeMessageFile fs [parentDir, roomDir, currentFileDate ++ ".json"] currentMessages,
       [⟨[parentDir, roomDir], currentFileDate, currentMessages⟩])
  | message :: rest, currentFileDate, currentMessages, roomDir, fs =>
    match parseTimeStamp message.ts with
    | TsResult.malformed => Except.error FsErr.valueError
    | TsResult.noneResult => Except.error FsErr.typeError
    | TsResult.instant t =>
      let fileDate := formatDay t
      if fileDate ≠ currentFileDate then
        let fs1 := writeMessageFile fs [parentDir, roomDir, currentFileDate ++ ".json"] currentMessages
        if roomType ≠ "im" ∧ message.subtype = some nameChangeFlag then
          match message.name, message.old_name with
          | Option.some newName, Option.some oldName =>
            match channelRename [parentDir, oldName] [parentDir, newName] fs1 with
            | Except.error e => Except.error e
            | Except.ok fs2 =>
              match parseLoop parentDir roomType nameChangeFlag rest fileDate [message] newName fs2 with
              | Except.error e => Except.error e
              | Except.ok r => Except.ok (r.1, ⟨[parentDir, roomDir], currentFileDate, currentMessages⟩ :: r.2)
          | _, _ => Except.error FsErr.keyError
        else
          match parseLoop parentDir roomType nameChangeFlag rest fileDate [message] roomDir fs1 with
          | Except.error e => Except.error e
          | Except.ok r => Except.ok (r.1, ⟨[parentDir, roomDir], currentFileDate, currentMessages⟩ :: r.2)
      else
        if roomType ≠ "im" ∧ message.subtype = some nameChangeFlag then
          match message.name, message.old_name with
          | Option.some newName, Option.some oldName =>
            match channelRename [parentDir, oldName] [parentDir, newName] fs with
            | Except.error e => Except.error e
            | Except.ok fs2 =>
              parseLoop parentDir roomType nameChangeFlag rest currentFileDate (currentMessages ++ [message]) newName fs2
          | _, _ => Except.error FsErr.keyError
        else
          parseLoop parentDir roomType nameChangeFlag rest currentFileDate (currentMessages ++ [message]) roomDir fs

/-- `parseMessages(parentDir, roomDir, messages, roomType)`:
`nameChangeFlag = roomType + "_name"`, `currentFileDate = ''`,
`currentMessages = []`, then the loop and the final flush. -/
def parseMessages (parentDir roomDir : String) (messages : List Msg)
    (roomType : String) (fs : FS) : Except FsErr (FS × List WriteEv) :=
  parseLoop parentDir roomType (roomType ++ "_name") messages "" [] roomDir fs

/-- The day key of a message's `ts`, as `parseMessages` computes it. -/
def msgDay (m : Msg) : Option String :=
  tsDayKey m.ts

/-- A message triggers the rename branch of `parseMessages`. -/
def isRenameMsg (roomType nameChangeFlag : String) (m : Msg) : Prop :=
  roomType ≠ "im" ∧ m.subtype = some nameChangeFlag

instance (roomType nameChangeFlag : String) (m : Msg) :
    Decidable (isRenameMsg roomType nameChangeFlag m) := by
  unfold isRenameMsg; infer_instance

/-- Well-formed filesystem: file keys (directory, name) are pairwise
distinct, as on a real filesystem. -/
def FSWf (fs : FS) : Prop :=
  (fs.files.map (fun e => (e.1, e.2.1))).Nodup

instance (fs : FS) : Decidable (FSWf fs) := by
  unfold FSWf; infer_instance

/-- Newest-first: timestamps strictly decrease along the list (the endpoint
contract: pages are newest-first and timestamps are pairwise distinct). -/
def NewestFirst (l : List FMsg) : Prop :=
  l.Pairwise (fun a b => b.ts < a.ts)

/-- Oldest-first: timestamps non-decreasing along the list. -/
def OldestFirst (l : List FMsg) : Prop :=
  l.Pairwise (fun a b => a.ts ≤ b.ts)

instance (l : List FMsg) : Decidable (NewestFirst l) := by
  unfold NewestFirst; infer_instance

instance (l : List FMsg) : Decidable (OldestFirst l) := by
  unfold OldestFirst; infer_instance

/-- Requests `getHistory` needs for a remaining suffix of the history:
one final request even when nothing remains, else `⌈len / pageSize⌉`. -/
def pagesNeeded (pageSize len : Nat) : Nat :=
  if len = 0 then 1 else (len + pageSize - 1) / pageSize

/-! ## Concrete scenario inputs used by counterexamples and witnesses -/

/-- A plain message (no subtype). -/
def msgAt (ts : String) : Msg :=
  ⟨ts, Option.none, Option.none, Option.none⟩

/-- A `channel_name` rename event renaming `oldName` to `newName`. -/
def renameMsgAt (ts oldName newName : String) : Msg :=
  ⟨ts, some "channel_name", some newName, some oldName⟩

/-- A filesystem where both `p/foo` and `p/bar` exist and `p/bar` already
holds a file with a name distinct from everything in `p/foo`, as after a
prior rename in the same run. -/
def fooBarFS : FS :=
  ⟨[["p"], ["p", "foo"], ["p", "bar"]],
   [(["p", "foo"], "a.json", [msgAt "1.0"]), (["p", "bar"], "b.json", [])]⟩

/-- A filesystem where `p/foo` and `p/bar` both hold a file of the same
name, so moving the contents of `p/foo` into `p/bar` hits the
`shutil.move` destination-exists check. -/
def clashFS : FS :=
  ⟨[["p"], ["p", "foo"], ["p", "bar"]],
   [(["p", "foo"], "2020-01-01.json", [msgAt "1.0"]),
    (["p", "bar"], "2020-01-01.json", [])]⟩

/-- The driver-prepared filesystem for a conversation in directory
`channel/foo`. -/
def fooFS : FS :=
  ⟨[["channel"], ["channel", "foo"]], []⟩

/-- Two messages on 2020-01-01, a rename to `bar` carried by the first
message of 2020-01-02, one more message that day, one on 2020-01-03. -/
def renameStream : List Msg :=
  [msgAt "1577836800.0", msgAt "1577836801.0",
   renameMsgAt "1577923200.0" "foo" "bar",
   msgAt "1577923201.0", msgAt "1578009600.0"]

/-- Day keys d1,d1,d2,d2,d2,d3 across 2020-01-01 .. 2020-01-03. -/
def threeDayStream : List Msg :=
  [msgAt "1577836800.0", msgAt "1577836801.0",
   msgAt "1577923200.0", msgAt "1577923201.0", msgAt "1577923202.0",
   msgAt "1578009600.0"]

/-- A plain message followed by a same-day rename event. -/
def midDayRenameStream : List Msg :=
  [msgAt "1577836800.0", renameMsgAt "1577836801.0" "foo" "bar"]

/-! ## Lemmas on the timestamp codec -/

theorem splitOnChar_ne_nil (c : Char) (s : List Char) : splitOnChar c s ≠ [] := by
  induction s with
  | nil => simp [splitOnChar]
  | cons x xs ih =>
    simp only [splitOnChar]
    by_cases hx : x = c
    · simp [hx]
    · simp only [if_neg hx]
      cases h : splitOnChar c xs with
      | nil => exact absurd h ih
      | cons y ys => simp

theorem splitOnChar_of_not_mem (c : Char) (s : List Char) (h : c ∉ s) :
    splitOnChar c s = [s] := by
  induction s with
  | nil => rfl
  | cons x xs ih =>
    have hx : ¬ x = c := fun hxc => h (hxc ▸ List.mem_cons_self x xs)
    have hxs : c ∉ xs := fun hm => h (List.mem_cons_of_mem x hm)
    simp only [splitOnChar, if_neg hx, ih hxs]

theorem splitOnChar_append (c : Char) (a b : List Char) (h : c ∉ a) :
    splitOnChar c (a ++ c :: b) = a :: splitOnChar c b := by
  induction a with
  | nil => simp [splitOnChar]
  | cons x a' ih =>
    have hx : ¬ x = c := fun hxc => h (hxc ▸ List.mem_cons_self x a')
    have ha' : c ∉ a' := fun hm => h (List.mem_cons_of_mem x hm)
    have h2 : splitOnChar c (a'.append (c :: b)) = a' :: splitOnChar c b := ih ha'
    simp only [List.cons_append, splitOnChar, if_neg hx]
    rw [h2]

theorem splitOnChar_length (c : Char) (s : List Char) :
    (splitOnChar c s).length = s.count c + 1 := by
  induction s with
  | nil => simp [splitOnChar]
  | cons x xs ih =>
    simp only [splitOnChar]
    by_cases hx : x = c
    · subst hx
      simp [List.count_cons, ih]
    · simp only [if_neg hx]
      cases h : splitOnChar c xs with
      | nil => exact absurd h (splitOnChar_ne_nil c xs)
      | cons y ys =>
        have := ih
        rw [h] at this
        simp only [List.length_cons] at this ⊢
        have hcx : ¬ c = x := fun hcx => hx hcx.symm
        simp [List.count_cons, hcx, ← this]

theorem splitOnChar_headD (c : Char) (s : List Char) :
    (splitOnChar c s).headD [] = s.takeWhile (fun x => x != c) := by
  induction s with
  | nil => simp [splitOnChar]
  | cons x xs ih =>
    simp only [splitOnChar]
    by_cases hx : x = c
    · subst hx
      simp [List.takeWhile]
    · simp only [if_neg hx]
      cases h : splitOnChar c xs with
      | nil => exact absurd h (splitOnChar_ne_nil c xs)
      | cons y ys =>
        have hy := ih
        rw [h] at hy
        simp only [List.headD_cons] at hy
        have hb : (x != c) = true := bne_iff_ne.mpr hx
        simp [List.takeWhile, hb, hy]

theorem parseTimeStampL_malformed_iff (s : List Char) :
    parseTimeStampL s = TsResult.malformed ↔
      2 ≤ s.count '.' ∨
        (s.count '.' = 1 ∧ pyFloat (s.takeWhile (fun x => x != '.')) = Option.none) := by
  by_cases hmem : '.' ∈ s
  · have hcount : 1 ≤ s.count '.' := List.count_pos_iff.mpr hmem
    have hlen : (splitOnChar '.' s).length = s.count '.' + 1 := splitOnChar_length '.' s
    by_cases hone : s.count '.' = 1
    · have hlen2 : (splitOnChar '.' s).length = 2 := by rw [hlen, hone]
      have hhead : (splitOnChar '.' s).headD [] = s.takeWhile (fun x => x != '.') :=
        splitOnChar_headD '.' s
      simp only [parseTimeStampL, if_pos hmem, hlen2]
      rw [hhead]
      cases hpf : pyFloat (s.takeWhile (fun x => x != '.')) with
      | none => simp [hone]
      | some v => simp [hone, hpf]
    · have htwo : 2 ≤ s.count '.' := by omega
      have hlenne : (splitOnChar '.' s).length ≠ 2 := by
        rw [hlen]; omega
      simp only [parseTimeStampL, if_pos hmem, if_pos hlenne]
      simp [htwo]
  · have hzero : s.count '.' = 0 := by
      rw [List.count_eq_zero]; exact hmem
    simp only [parseTimeStampL, if_neg hmem]
    constructor
    · intro h; exact absurd h (by simp)
    · intro h
      rcases h with h | ⟨h1, _⟩
      · omega
      · omega

theorem parseTimeStampL_noneResult_iff (s : List Char) :
    parseTimeStampL s = TsResult.noneResult ↔ s.count '.' = 0 := by
  by_cases hmem : '.' ∈ s
  · have hcount : 1 ≤ s.count '.' := List.count_pos_iff.mpr hmem
    simp only [parseTimeStampL, if_pos hmem]
    constructor
    · intro h
      by_cases hlen : (splitOnChar '.' s).length ≠ 2
      · rw [if_pos hlen] at h; exact absurd h (by simp)
      · rw [if_neg hlen] at h
        cases hpf : pyFloat ((splitOnChar '.' s).headD []) with
        | none => rw [hpf] at h; exact absurd h (by simp)
        | some v => rw [hpf] at h; exact absurd h (by simp)
    · intro h; omega
  · have hzero : s.count '.' = 0 := by rw [List.count_eq_zero]; exact hmem
    simp [parseTimeStampL, if_neg hmem, hzero]

/-- Claim C5, counterexample: the claim says a timestamp string with zero
`'.'` separators (such as `"abc"`) raises `MalformedTimestamp`; in the code
the `if '.' in timeStamp` guard makes such input fall off the end of
`parseTimeStamp` and return Python `None` instead of raising. -/
theorem parseTimeStamp_no_dot_counterexample :
    parseTimeStamp "abc" = TsResult.noneResult ∧
      TsResult.noneResult ≠ TsResult.malformed := by
  decide

/-- Claim C5 (amended): `parseTimeStamp` raises `MalformedTimestamp` iff the
input contains more than one `'.'` separator, or exactly one `'.'` with an
integer-seconds part that `float()` does not parse; an input with zero `'.'`
returns Python `None` (no instant and no error).  In particular `"1.2.3"`
raises, `"abc"` returns `None`, and `"1579000000.123456"` decodes to the UTC
instant 1579000000, whose day key is `2020-01-14`. -/
theorem parseTimeStamp_malformed_characterization :
    (∀ s : List Char,
        (parseTimeStampL s = TsResult.malformed ↔
          2 ≤ s.count '.' ∨
            (s.count '.' = 1 ∧
              pyFloat (s.takeWhile (fun x => x != '.')) = Option.none)) ∧
        (parseTimeStampL s = TsResult.noneResult ↔ s.count '.' = 0)) ∧
    parseTimeStamp "abc" = TsResult.noneResult ∧
    parseTimeStamp "1.2.3" = TsResult.malformed ∧
    parseTimeStamp "1579000000.123456" = TsResult.instant 1579000000 ∧
    tsDayKey "1579000000.123456" = some "2020-01-14" := by
  refine ⟨fun s => ⟨parseTimeStampL_malformed_iff s, parseTimeStampL_noneResult_iff s⟩,
    ?_, ?_, ?_, ?_⟩
  · decide
  · decide
  · decide
  · decide

/-- Claim C9: for timestamp strings with the same integer-seconds component
and exactly one `'.'` separator, `parseTimeStamp` returns the same result
whatever the fractional component holds — the fractional part is split off
and never parsed or validated. -/
theorem parseTimeStamp_fraction_ignored (ip f1 f2 : List Char)
    (hip : '.' ∉ ip) (h1 : '.' ∉ f1) (h2 : '.' ∉ f2) :
    parseTimeStampL (ip ++ '.' :: f1) = parseTimeStampL (ip ++ '.' :: f2) := by
  have key : ∀ f : List Char, '.' ∉ f →
      parseTimeStampL (ip ++ '.' :: f) =
        (match pyFloat ip with
         | Option.none => TsResult.malformed
         | Option.some v => TsResult.instant v) := by
    intro f hf
    have hmem : '.' ∈ ip ++ '.' :: f :=
      List.mem_append_right ip (List.mem_cons_self _ _)
    have hsplit : splitOnChar '.' (ip ++ '.' :: f) = ip :: splitOnChar '.' f :=
      splitOnChar_append '.' ip f hip
    have hfs : splitOnChar '.' f = [f] := splitOnChar_of_not_mem '.' f hf
    simp only [parseTimeStampL, if_pos hmem, hsplit, hfs]
    simp
  rw [key f1 h1, key f2 h2]

/-- Claim C9, witness: `"1579000000.garbage"` decodes successfully and to the
same instant as `"1579000000.123456"`. -/
theorem parseTimeStamp_fraction_ignored_witness :
    parseTimeStamp "1579000000.garbage" = parseTimeStamp "1579000000.123456" ∧
      parseTimeStamp "1579000000.garbage" = TsResult.instant 1579000000 := by
  constructor
  · show parseTimeStampL "1579000000.garbage".data
        = parseTimeStampL "1579000000.123456".data
    have e1 : "1579000000.garbage".data
        = "1579000000".data ++ '.' :: "garbage".data := by decide
    have e2 : "1579000000.123456".data
        = "1579000000".data ++ '.' :: "123456".data := by decide
    rw [e1, e2]
    exact parseTimeStamp_fraction_ignored "1579000000".data "garbage".data
      "123456".data (by decide) (by decide) (by decide)
  · decide

/-! ## Lemmas on the pagination loop -/

theorem pagesNeeded_pos (ps L : Nat) (hps : 1 ≤ ps) : 1 ≤ pagesNeeded ps L := by
  unfold pagesNeeded
  by_cases h : L = 0
  · simp [h]
  · simp only [if_neg h]
    exact (Nat.le_div_iff_mul_le (by omega)).mpr (by omega)

theorem pagesNeeded_eq_one (ps L : Nat) (hps : 1 ≤ ps) (hL : L ≤ ps) :
    pagesNeeded ps L = 1 := by
  unfold pagesNeeded
  by_cases h : L = 0
  · simp [h]
  · simp only [if_neg h]
    have hlo : 1 ≤ (L + ps - 1) / ps := (Nat.le_div_iff_mul_le (by omega)).mpr (by omega)
    have hhi : (L + ps - 1) / ps < 2 := (Nat.div_lt_iff_lt_mul (by omega)).mpr (by omega)
    omega

theorem pagesNeeded_step (ps L : Nat) (hps : 1 ≤ ps) (hlt : ps < L) :
    pagesNeeded ps L = pagesNeeded ps (L - ps) + 1 := by
  unfold pagesNeeded
  have h1 : ¬ L = 0 := by omega
  have h2 : ¬ L - ps = 0 := by omega
  simp only [if_neg h1, if_neg h2]
  have e1 : L + ps - 1 = (L - 1) + ps := by omega
  have e2 : L - ps + ps - 1 = L - 1 := by omega
  rw [e1, e2, Nat.add_div_right _ (by omega : 0 < ps)]

/-- `l.getLast? = some a` puts `a` in `l`. -/
theorem getLast?_mem_list {α : Type} {l : List α} {a : α}
    (h : l.getLast? = some a) : a ∈ l := by
  have ha : a ∈ l.getLast? := h
  rcases List.mem_getLast?_eq_getLast ha with ⟨hne, rfl⟩
  exact List.getLast_mem hne

/-- Appending on the left preserves a known last element. -/
theorem getLast?_append_some {α : Type} {l l2 : List α} {y : α}
    (h : l2.getLast? = some y) : (l ++ l2).getLast? = some y := by
  rw [List.getLast?_append, h]
  rfl

/-- In a newest-first list, the last element carries the minimal timestamp. -/
theorem newestFirst_last_min :
    ∀ l : List FMsg, NewestFirst l → ∀ x : FMsg, l.getLast? = some x →
      ∀ m ∈ l, x.ts ≤ m.ts := by
  intro l
  induction l with
  | nil => intro _ x hx; simp at hx
  | cons a l' ih =>
    intro h x hx m hm
    cases l' with
    | nil =>
      simp at hx
      subst hx
      simp at hm
      subst hm
      exact le_refl _
    | cons b l'' =>
      rw [List.getLast?_cons_cons] at hx
      have hcons := List.pairwise_cons.mp h
      rcases List.mem_cons.mp hm with rfl | hm'
      · have hxmem : x ∈ b :: l'' := getLast?_mem_list hx
        exact le_of_lt (hcons.1 x hxmem)
      · exact ih hcons.2 x hx m hm'

/-- The server request with the cursor at the last accumulated timestamp
returns exactly the unconsumed suffix of the newest-first history. -/
theorem filter_lt_last (pre suf : List FMsg) (x : FMsg)
    (h : NewestFirst (pre ++ suf)) (hx : pre.getLast? = some x) :
    (pre ++ suf).filter (fun m => decide (m.ts < x.ts)) = suf := by
  rw [List.filter_append]
  have hpair := List.pairwise_append.mp h
  have hxmem : x ∈ pre := getLast?_mem_list hx
  have h1 : pre.filter (fun m => decide (m.ts < x.ts)) = [] := by
    apply List.filter_eq_nil_iff.mpr
    intro m hm
    have := newestFirst_last_min pre hpair.1 x hx m hm
    simp
    omega
  have h2 : suf.filter (fun m => decide (m.ts < x.ts)) = suf := by
    apply List.filter_eq_self.mpr
    intro m hm
    have := hpair.2.2 x hxmem m hm
    simp
    omega
  rw [h1, h2, List.nil_append]

/-- Main loop invariant: once a non-empty prefix `pre` of the newest-first
history has been accumulated and the cursor sits on its last timestamp, the
loop consumes the remaining suffix page by page, returning the whole history
and issuing exactly `pagesNeeded` further requests. -/
theorem getHistoryLoop_spec (ps : Nat) (hps : 1 ≤ ps) :
    ∀ (fuel : Nat) (suf pre : List FMsg) (x : FMsg) (reqs : Nat),
      NewestFirst (pre ++ suf) → pre.getLast? = some x →
      pagesNeeded ps suf.length ≤ fuel →
      getHistoryLoop (pre ++ suf) ps fuel pre (some x.ts) reqs
        = Except.ok (pre ++ suf, reqs + pagesNeeded ps suf.length) := by
  intro fuel
  induction fuel with
  | zero =>
    intro suf pre x reqs _ _ hfuel
    have := pagesNeeded_pos ps suf.length hps
    omega
  | succ n ih =>
    intro suf pre x reqs h hx hfuel
    have hpage : pageOf (pre ++ suf) (some x.ts) ps
        = (suf.take ps, decide (ps < suf.length)) := by
      have hf := filter_lt_last pre suf x h hx
      simp only [pageOf, hf]
    by_cases hlt : ps < suf.length
    · have hd : decide (ps < suf.length) = true := decide_eq_true hlt
      have htne : suf.take ps ≠ [] := by
        apply List.ne_nil_of_length_pos
        rw [List.length_take]
        omega
      obtain ⟨y, hy⟩ : ∃ y, (suf.take ps).getLast? = some y := by
        cases hcase : (suf.take ps).getLast? with
        | none => exact absurd (List.getLast?_eq_none_iff.mp hcase) htne
        | some y => exact ⟨y, rfl⟩
      have hgl : (pre ++ suf.take ps).getLast? = some y := getLast?_append_some hy
      have hsplit : pre ++ suf = (pre ++ suf.take ps) ++ suf.drop ps := by
        rw [List.append_assoc, List.take_append_drop]
      have h2 : NewestFirst ((pre ++ suf.take ps) ++ suf.drop ps) := by
        rw [← hsplit]
        exact h
      have hstep := pagesNeeded_step ps suf.length hps hlt
      have hfuel2 : pagesNeeded ps (suf.drop ps).length ≤ n := by
        rw [List.length_drop]
        omega
      have hrec := ih (suf.drop ps) (pre ++ suf.take ps) y (reqs + 1) h2 hgl hfuel2
      rw [← hsplit] at hrec
      simp only [getHistoryLoop, hpage, hd, if_true, hgl]
      rw [hrec, List.length_drop]
      have harith : reqs + 1 + pagesNeeded ps (suf.length - ps)
          = reqs + pagesNeeded ps suf.length := by omega
      rw [harith]
    · have hd : decide (ps < suf.length) = false := decide_eq_false hlt
      have htake : suf.take ps = suf := List.take_of_length_le (by omega)
      have hone : pagesNeeded ps suf.length = 1 :=
        pagesNeeded_eq_one ps suf.length hps (by omega)
      simp only [getHistoryLoop, hpage, hd, Bool.false_eq_true, if_false, htake, hone]

/-- `getHistory` on an empty conversation: one request, empty result. -/
theorem getHistory_nil (ps fuel : Nat) (hfuel : 1 ≤ fuel) :
    getHistory [] ps fuel = Except.ok ([], 1) := by
  obtain ⟨n, rfl⟩ : ∃ n, fuel = n + 1 := ⟨fuel - 1, by omega⟩
  simp [getHistory, getHistoryLoop, pageOf]

/-- `getHistory` retrieves the full newest-first history unchanged, issuing
`pagesNeeded` requests. -/
theorem getHistory_spec (hist : List FMsg) (ps fuel : Nat)
    (h : NewestFirst hist) (hps : 1 ≤ ps) (hne : hist ≠ [])
    (hfuel : pagesNeeded ps hist.length ≤ fuel) :
    getHistory hist ps fuel = Except.ok (hist, pagesNeeded ps hist.length) := by
  obtain ⟨n, rfl⟩ : ∃ n, fuel = n + 1 :=
    ⟨fuel - 1, by have := pagesNeeded_pos ps hist.length hps; omega⟩
  have hL : 1 ≤ hist.length := List.length_pos.mpr hne
  have hpage : pageOf hist Option.none ps
      = (hist.take ps, decide (ps < hist.length)) := rfl
  unfold getHistory
  by_cases hlt : ps < hist.length
  · have hd : decide (ps < hist.length) = true := decide_eq_true hlt
    have htne : hist.take ps ≠ [] := by
      apply List.ne_nil_of_length_pos
      rw [List.length_take]
      omega
    obtain ⟨y, hy⟩ : ∃ y, (hist.take ps).getLast? = some y := by
      cases hcase : (hist.take ps).getLast? with
      | none => exact absurd (List.getLast?_eq_none_iff.mp hcase) htne
      | some y => exact ⟨y, rfl⟩
    have hsplit : hist = hist.take ps ++ hist.drop ps :=
      (List.take_append_drop ps hist).symm
    have h2 : NewestFirst (hist.take ps ++ hist.drop ps) := by
      rw [← hsplit]
      exact h
    have hstep := pagesNeeded_step ps hist.length hps hlt
    have hfuel2 : pagesNeeded ps (hist.drop ps).length ≤ n := by
      rw [List.length_drop]
      omega
    have hrec := getHistoryLoop_spec ps hps n (hist.drop ps) (hist.take ps) y 1 h2 hy hfuel2
    rw [← hsplit] at hrec
    simp only [getHistoryLoop, hpage, hd, if_true, List.nil_append, hy]
    rw [hrec, List.length_drop]
    have harith : 1 + pagesNeeded ps (hist.length - ps)
        = pagesNeeded ps hist.length := by omega
    rw [harith]
  · have hd : decide (ps < hist.length) = false := decide_eq_false hlt
    have htake : hist.take ps = hist := List.take_of_length_le (by omega)
    have hone : pagesNeeded ps hist.length = 1 :=
      pagesNeeded_eq_one ps hist.length hps (by omega)
    simp only [getHistoryLoop, hpage, hd, Bool.false_eq_true, if_false,
      List.nil_append, htake, hone]

/-- Claim C1, counterexample: for a conversation whose newest-first history
is two messages with timestamps 2 then 1 and page size 1, `getHistory`
returns the messages newest-first, not oldest-first as the claim states. -/
theorem getHistory_not_oldest_first_counterexample :
    getHistory [⟨2, 0⟩, ⟨1, 0⟩] 1 5
        = Except.ok ([⟨2, 0⟩, ⟨1, 0⟩], 2) ∧
      ¬ OldestFirst [⟨2, 0⟩, ⟨1, 0⟩] := by
  constructor
  · rfl
  · decide

/-- Claim C1 (amended): `getHistory` returns the retrieved messages in
retrieval order — the concatenation of newest-first pages, each page older
than the previous — so the final result equals the endpoint's newest-first
history, unreversed, even though each page is retrieved newest-first. -/
theorem getHistory_returns_newest_first (hist : List FMsg) (ps fuel : Nat)
    (hcontract : NewestFirst hist) (hps : 1 ≤ ps)
    (hfuel : pagesNeeded ps hist.length ≤ fuel) :
    ∃ reqs : Nat, getHistory hist ps fuel = Except.ok (hist, reqs)
      ∧ NewestFirst hist := by
  by_cases hne : hist = []
  · subst hne
    exact ⟨1, getHistory_nil ps fuel (by simpa [pagesNeeded] using hfuel),
      List.Pairwise.nil⟩
  · exact ⟨pagesNeeded ps hist.length,
      getHistory_spec hist ps fuel hcontract hps hne hfuel, hcontract⟩

/-- Claim C1 (amended), witness at the counterexample's conversation. -/
theorem getHistory_returns_newest_first_witness :
    ∃ reqs : Nat, getHistory [⟨2, 0⟩, ⟨1, 0⟩] 1 5
        = Except.ok ([⟨2, 0⟩, ⟨1, 0⟩], reqs)
      ∧ NewestFirst [⟨2, 0⟩, ⟨1, 0⟩] :=
  getHistory_returns_newest_first [⟨2, 0⟩, ⟨1, 0⟩] 1 5 (by decide) (by decide)
    (by decide)

/-- Claim C3: for a conversation whose newest-first history holds `K ≥ 1`
messages (pairwise-distinct timestamps, per the endpoint contract) and a
positive page size, `getHistory` issues exactly `⌈K / pageSize⌉` page
requests and returns exactly the `K` messages of the history — no
duplicates, no omissions. -/
theorem getHistory_completeness (hist : List FMsg) (ps fuel : Nat)
    (hcontract : NewestFirst hist) (hps : 1 ≤ ps) (hK : 1 ≤ hist.length)
    (hfuel : (hist.length + ps - 1) / ps ≤ fuel) :
    getHistory hist ps fuel
      = Except.ok (hist, (hist.length + ps - 1) / ps) := by
  have hne : hist ≠ [] := by
    intro hcon
    rw [hcon] at hK
    simp at hK
  have hpn : pagesNeeded ps hist.length = (hist.length + ps - 1) / ps := by
    unfold pagesNeeded
    rw [if_neg (by omega)]
  rw [← hpn] at hfuel ⊢
  exact getHistory_spec hist ps fuel hcontract hps hne hfuel

/-- Claim C3, witness: five messages at page size 2 take three requests. -/
theorem getHistory_completeness_witness :
    getHistory [⟨5, 0⟩, ⟨4, 0⟩, ⟨3, 0⟩, ⟨2, 0⟩, ⟨1, 0⟩] 2 3
      = Except.ok ([⟨5, 0⟩, ⟨4, 0⟩, ⟨3, 0⟩, ⟨2, 0⟩, ⟨1, 0⟩], 3) :=
  getHistory_completeness [⟨5, 0⟩, ⟨4, 0⟩, ⟨3, 0⟩, ⟨2, 0⟩, ⟨1, 0⟩] 2 3
    (by decide) (by decide) (by decide) (by decide)

/-- Once the accumulator is non-empty the `messages[-1]` access can never
fail again: the accumulator only grows. -/
theorem getHistoryFromPagesLoop_no_indexError :
    ∀ (pages : List GPage) (acc : List FMsg), acc ≠ [] →
      getHistoryFromPagesLoop acc pages ≠ Except.error GFetchErr.indexError := by
  intro pages
  induction pages with
  | nil =>
    intro acc _
    simp [getHistoryFromPagesLoop]
  | cons p rest ih =>
    intro acc hacc
    simp only [getHistoryFromPagesLoop]
    cases hp : p.has_more with
    | true =>
      simp only [if_true]
      have hacc2 : acc ++ p.messages ≠ [] := fun hcon => hacc (List.append_eq_nil.mp hcon).1
      obtain ⟨y, hy⟩ : ∃ y, (acc ++ p.messages).getLast? = some y := by
        cases hcase : (acc ++ p.messages).getLast? with
        | none => exact absurd (List.getLast?_eq_none_iff.mp hcase) hacc2
        | some y => exact ⟨y, rfl⟩
      rw [hy]
      exact ih (acc ++ p.messages) hacc2
    | false =>
      simp

/-- Claim C10: the cursor update `messages[-1]['ts']` after a
`has_more=true` response hits the out-of-bounds branch exactly when no
message has been accumulated yet, i.e. the fetch loop fails with an
`IndexError` if and only if some non-empty prefix of the responses consists
entirely of pages that are empty yet report `has_more=true`. -/
theorem getHistory_cursor_safety :
    ∀ pages : List GPage,
      getHistoryFromPages pages = Except.error GFetchErr.indexError ↔
        ∃ n, 1 ≤ n ∧ n ≤ pages.length ∧
          ∀ p ∈ pages.take n, p.messages = [] ∧ p.has_more = true := by
  intro pages
  cases pages with
  | nil =>
    constructor
    · intro hcon
      simp [getHistoryFromPages, getHistoryFromPagesLoop] at hcon
    · rintro ⟨n, hn1, hn2, -⟩
      simp at hn2
      omega
  | cons p rest =>
    simp only [getHistoryFromPages, getHistoryFromPagesLoop, List.nil_append]
    cases hp : p.has_more with
    | true =>
      simp only [if_true]
      cases hmsg : p.messages with
      | nil =>
        simp only [List.getLast?_nil]
        constructor
        · intro _
          refine ⟨1, le_refl 1, by simp, ?_⟩
          intro q hq
          simp [List.take_succ_cons] at hq
          subst hq
          exact ⟨hmsg, hp⟩
        · intro _
          trivial
      | cons a as =>
        have hne : p.messages ≠ [] := by rw [hmsg]; simp
        rw [← hmsg]
        obtain ⟨y, hy⟩ : ∃ y, p.messages.getLast? = some y := by
          cases hcase : p.messages.getLast? with
          | none => exact absurd (List.getLast?_eq_none_iff.mp hcase) hne
          | some y => exact ⟨y, rfl⟩
        rw [hy]
        constructor
        · intro hcon
          exact absurd hcon (getHistoryFromPagesLoop_no_indexError rest p.messages hne)
        · rintro ⟨n, hn1, hn2, hall⟩
          obtain ⟨n', rfl⟩ : ∃ n', n = n' + 1 := ⟨n - 1, by omega⟩
          have := (hall p (by simp [List.take_succ_cons])).1
          exact absurd this hne
    | false =>
      simp only [Bool.false_eq_true, if_false]
      constructor
      · intro hcon
        simp at hcon
      · rintro ⟨n, hn1, hn2, hall⟩
        obtain ⟨n', rfl⟩ : ∃ n', n = n' + 1 := ⟨n - 1, by omega⟩
        have := (hall p (by simp [List.take_succ_cons])).2
        rw [hp] at this
        simp at this

/-- Claim C8: fetching a conversation with zero messages returns an empty
sequence (after a single page request) rather than an error, and
`parseMessages` on an empty message list performs exactly one write — the
sentinel empty-string day key with an empty message list. -/
theorem empty_conversation_behavior :
    (∀ ps fuel : Nat, 1 ≤ fuel → getHistory [] ps fuel = Except.ok ([], 1)) ∧
    (∀ (parentDir roomDir roomType : String) (fs : FS),
      (parseMessages parentDir roomDir [] roomType fs).map Prod.snd
        = Except.ok [⟨[parentDir, roomDir], "", []⟩]) := by
  constructor
  · exact fun ps fuel h => getHistory_nil ps fuel h
  · intro parentDir roomDir roomType fs
    rfl

/-- Claim C8, witness at the default page size and a fresh filesystem. -/
theorem empty_conversation_behavior_witness :
    getHistory [] 100 1 = Except.ok ([], 1) ∧
      (parseMessages "channel" "general" [] "channel" ⟨[], []⟩).map Prod.snd
        = Except.ok [⟨["channel", "general"], "", []⟩] :=
  ⟨empty_conversation_behavior.1 100 1 (by decide),
   empty_conversation_behavior.2 "channel" "general" "channel" ⟨[], []⟩⟩

/-! ## Lemmas on the filesystem model -/

theorem keyIs_iff (d : FsPath) (f : String) (e : FsPath × String × List Msg) :
    keyIs d f e = true ↔ e.1 = d ∧ e.2.1 = f := by
  simp [keyIs]

theorem mkdir_files (fs : FS) (d : FsPath) : (mkdir fs d).files = fs.files := by
  unfold mkdir
  split
  · rfl
  · rfl

theorem lookupFile_mkdir (fs : FS) (d d' : FsPath) (f' : String) :
    lookupFile (mkdir fs d) d' f' = lookupFile fs d' f' := by
  unfold lookupFile
  rw [mkdir_files]

theorem lookupFile_rmdirDirs (fs : FS) (d d' : FsPath) (f' : String) :
    lookupFile (rmdirDirs fs d) d' f' = lookupFile fs d' f' := rfl

theorem listdir_mkdir (fs : FS) (d d' : FsPath) :
    listdir (mkdir fs d) d' = listdir fs d' := by
  unfold listdir filesIn
  rw [mkdir_files]

theorem find?_keyIs_filter (d : FsPath) (f : String) (d' : FsPath) (f' : String)
    (l : List (FsPath × String × List Msg)) (h : ¬ (d' = d ∧ f' = f)) :
    (l.filter (fun e => ! keyIs d f e)).find? (keyIs d' f') = l.find? (keyIs d' f') := by
  induction l with
  | nil => rfl
  | cons e rest ih =>
    by_cases hk : keyIs d f e = true
    · have hk' : keyIs d' f' e = false := by
        rw [keyIs_iff] at hk
        simp only [keyIs, decide_eq_false_iff_not]
        intro hcon
        exact h ⟨hcon.1.symm.trans hk.1, hcon.2.symm.trans hk.2⟩
      simp [List.filter_cons, hk, List.find?_cons, hk', ih]
    · by_cases hk' : keyIs d' f' e = true
      · simp [List.filter_cons, hk, List.find?_cons, hk']
      · simp [List.filter_cons, hk, List.find?_cons, hk', ih]

theorem lookupFile_setFile_same (fs : FS) (d : FsPath) (f : String) (c : List Msg) :
    lookupFile (setFile fs d f c) d f = some c := by
  have hhead : keyIs d f (d, f, c) = true := by
    rw [keyIs_iff]
    exact ⟨rfl, rfl⟩
  simp [lookupFile, setFile, List.find?_cons, hhead]

theorem lookupFile_setFile_other (fs : FS) (d : FsPath) (f : String) (c : List Msg)
    (d' : FsPath) (f' : String) (h : ¬ (d' = d ∧ f' = f)) :
    lookupFile (setFile fs d f c) d' f' = lookupFile fs d' f' := by
  have hhead : keyIs d' f' (d, f, c) = false := by
    simp only [keyIs, decide_eq_false_iff_not]
    intro hcon
    exact h ⟨hcon.1.symm, hcon.2.symm⟩
  simp [lookupFile, setFile, List.find?_cons, hhead, find?_keyIs_filter d f d' f' _ h]

theorem lookupFile_eraseFile_same (fs : FS) (d : FsPath) (f : String) :
    lookupFile (eraseFile fs d f) d f = Option.none := by
  simp only [lookupFile, eraseFile]
  have hnone : (fs.files.filter (fun e => ! keyIs d f e)).find? (keyIs d f)
      = Option.none := by
    rw [List.find?_eq_none]
    intro e he
    have hf := (List.mem_filter.mp he).2
    simp only [Bool.not_eq_true'] at hf
    simp [hf]
  rw [hnone]
  rfl

theorem lookupFile_eraseFile_other (fs : FS) (d : FsPath) (f : String)
    (d' : FsPath) (f' : String) (h : ¬ (d' = d ∧ f' = f)) :
    lookupFile (eraseFile fs d f) d' f' = lookupFile fs d' f' := by
  simp only [lookupFile, eraseFile]
  rw [find?_keyIs_filter d f d' f' _ h]

theorem FSWf_setFile (fs : FS) (d : FsPath) (f : String) (c : List Msg)
    (h : FSWf fs) : FSWf (setFile fs d f c) := by
  unfold FSWf at h ⊢
  simp only [setFile, List.map_cons]
  rw [List.nodup_cons]
  constructor
  · intro hmem
    obtain ⟨e, he, hkey⟩ := List.mem_map.mp hmem
    have hf := (List.mem_filter.mp he).2
    simp only [Bool.not_eq_true'] at hf
    have hnot : ¬ (e.1 = d ∧ e.2.1 = f) := by
      intro hcon
      rw [(keyIs_iff d f e).mpr hcon] at hf
      exact absurd hf (by simp)
    exact hnot ⟨congrArg Prod.fst hkey, congrArg Prod.snd hkey⟩
  · exact List.Nodup.sublist ((List.filter_sublist _).map _) h

theorem FSWf_eraseFile (fs : FS) (d : FsPath) (f : String) (h : FSWf fs) :
    FSWf (eraseFile fs d f) := by
  unfold FSWf at h ⊢
  exact List.Nodup.sublist ((List.filter_sublist _).map _) h

theorem FSWf_mkdir (fs : FS) (d : FsPath) (h : FSWf fs) : FSWf (mkdir fs d) := by
  unfold FSWf at h ⊢
  rw [mkdir_files]
  exact h

theorem FSWf_rmdirDirs (fs : FS) (d : FsPath) (h : FSWf fs) :
    FSWf (rmdirDirs fs d) := h

theorem listdir_nodup_aux (d : FsPath) :
    ∀ l : List (FsPath × String × List Msg),
      (l.map (fun e => (e.1, e.2.1))).Nodup →
      ((l.filter (fun e => decide (e.1 = d))).map (fun e => e.2.1)).Nodup := by
  intro l
  induction l with
  | nil => simp
  | cons e rest ih =>
    intro h
    rw [List.map_cons, List.nodup_cons] at h
    by_cases hd : e.1 = d
    · have hkeep : List.filter (fun e => decide (e.1 = d)) (e :: rest)
          = e :: List.filter (fun e => decide (e.1 = d)) rest := by
        simp [List.filter_cons, hd]
      rw [hkeep, List.map_cons, List.nodup_cons]
      refine ⟨?_, ih h.2⟩
      intro hmem
      obtain ⟨e', he', hname⟩ := List.mem_map.mp hmem
      have hmf := List.mem_filter.mp he'
      have hd' : e'.1 = d := by simpa using hmf.2
      apply h.1
      exact List.mem_map.mpr ⟨e', hmf.1, by rw [hd', hname, hd]⟩
    · have hskip : List.filter (fun e => decide (e.1 = d)) (e :: rest)
          = List.filter (fun e => decide (e.1 = d)) rest := by
        simp [List.filter_cons, hd]
      rw [hskip]
      exact ih h.2

theorem listdir_nodup (fs : FS) (h : FSWf fs) (d : FsPath) :
    (listdir fs d).Nodup :=
  listdir_nodup_aux d fs.files h

theorem mem_listdir_iff (fs : FS) (d : FsPath) (f : String) :
    f ∈ listdir fs d ↔ (lookupFile fs d f).isSome := by
  unfold listdir filesIn lookupFile
  constructor
  · intro hmem
    obtain ⟨e, he, hname⟩ := List.mem_map.mp hmem
    have hmf := List.mem_filter.mp he
    have hd : e.1 = d := by simpa using hmf.2
    have hfind : (fs.files.find? (keyIs d f)).isSome :=
      List.find?_isSome.mpr ⟨e, hmf.1, (keyIs_iff d f e).mpr ⟨hd, hname⟩⟩
    cases hc : fs.files.find? (keyIs d f) with
    | none => rw [hc] at hfind; simp at hfind
    | some x => simp [hc]
  · intro hs
    have hfind : (fs.files.find? (keyIs d f)).isSome := by
      cases hc : fs.files.find? (keyIs d f) with
      | none => rw [hc] at hs; simp at hs
      | some x => rfl
    obtain ⟨e, he, hk⟩ := List.find?_isSome.mp hfind
    rw [keyIs_iff] at hk
    exact List.mem_map.mpr ⟨e, List.mem_filter.mpr ⟨he, by simp [hk.1]⟩, hk.2⟩

theorem filesIn_eq_nil_of_lookup_none (fs : FS) (d : FsPath)
    (h : ∀ f, lookupFile fs d f = Option.none) : filesIn fs d = [] := by
  unfold filesIn
  rw [List.filter_eq_nil_iff]
  intro e he
  simp only [decide_eq_true_eq]
  intro hd
  have hlook := h e.2.1
  unfold lookupFile at hlook
  have hfind : fs.files.find? (keyIs d e.2.1) = Option.none := by
    cases hc : fs.files.find? (keyIs d e.2.1) with
    | none => rfl
    | some x => rw [hc] at hlook; simp at hlook
  have hnone := List.find?_eq_none.mp hfind e he
  exact hnone ((keyIs_iff d e.2.1 e).mpr ⟨hd, rfl⟩)

theorem isdir_mkdir_self (fs : FS) (d : FsPath) (hd : d ≠ []) :
    isdir (mkdir fs d) d = true := by
  unfold mkdir
  by_cases h : isdir fs d
  · rw [if_pos h]
    exact h
  · rw [if_neg h]
    unfold isdir at h ⊢
    simp only [decide_eq_true_eq] at h ⊢
    apply List.mem_append.mpr
    right
    apply List.mem_filter.mpr
    constructor
    · unfold ancestors
      apply List.mem_map.mpr
      have hlen : 0 < d.length := List.length_pos.mpr hd
      refine ⟨d.length - 1, List.mem_range.mpr (by omega), ?_⟩
      have heq : d.length - 1 + 1 = d.length := by omega
      rw [heq, List.take_length]
    · simp [h]

theorem isdir_rmdirDirs_self (fs : FS) (d : FsPath) :
    isdir (rmdirDirs fs d) d = false := by
  simp [isdir, rmdirDirs, List.mem_filter]

theorem isdir_rmdirDirs_other (fs : FS) (d d' : FsPath) (h : d' ≠ d) :
    isdir (rmdirDirs fs d) d' = isdir fs d' := by
  simp [isdir, rmdirDirs, List.mem_filter, h]

/-- The `for fileName in os.listdir(oldRoomName)` loop of `channelRename`:
given that the names listed are exactly the files of `src` and that none of
them already exists in `dst` (the `shutil.move` destination-exists check),
every move succeeds and afterwards `src` holds no files; each of its files
now sits in `dst` with unchanged contents, and `dst`'s prior files and all
other directories are untouched. -/
theorem moveAll_spec (src dst : FsPath) (hne : src ≠ dst) :
    ∀ (names : List String) (fs : FS),
      names.Nodup →
      (∀ f ∈ names, (lookupFile fs src f).isSome) →
      (∀ f, (lookupFile fs src f).isSome → f ∈ names) →
      (∀ f ∈ names, lookupFile fs dst f = Option.none) →
      ∃ fs', moveAll src dst fs names = Except.ok fs'
        ∧ fs'.dirs = fs.dirs
        ∧ (FSWf fs → FSWf fs')
        ∧ (∀ f, lookupFile fs' src f = Option.none)
        ∧ (∀ f c, lookupFile fs src f = some c → lookupFile fs' dst f = some c)
        ∧ (∀ f, lookupFile fs src f = Option.none →
            lookupFile fs' dst f = lookupFile fs dst f)
        ∧ (∀ d f, d ≠ src → d ≠ dst → lookupFile fs' d f = lookupFile fs d f) := by
  intro names
  induction names with
  | nil =>
    intro fs _ _ hcomplete _
    refine ⟨fs, rfl, rfl, fun hwf => hwf, ?_, ?_, fun f _ => rfl, fun d f _ _ => rfl⟩
    · intro f
      have hno : ¬ (lookupFile fs src f).isSome := fun hs => by
        simpa using hcomplete f hs
      exact Option.not_isSome_iff_eq_none.mp hno
    · intro f c hc
      exact absurd (hcomplete f (by rw [hc]; rfl)) (by simp)
  | cons f rest ih =>
    intro fs hnodup hsome hcomplete hnoclash
    obtain ⟨c, hc⟩ : ∃ c, lookupFile fs src f = some c := by
      have hs := hsome f (List.mem_cons_self f rest)
      cases hcl : lookupFile fs src f with
      | none => rw [hcl] at hs; simp at hs
      | some c => exact ⟨c, rfl⟩
    have hstep : moveFile fs src f dst
        = Except.ok (setFile (eraseFile fs src f) dst f c) := by
      simp only [moveFile, hc, hnoclash f (List.mem_cons_self f rest)]
    have hsdk : ∀ f' : String, ¬ (src = dst ∧ f' = f) := fun f' hcon => hne hcon.1
    have h1src_f : lookupFile (setFile (eraseFile fs src f) dst f c) src f
        = Option.none := by
      rw [lookupFile_setFile_other _ _ _ _ _ _ (hsdk f), lookupFile_eraseFile_same]
    have h1src : ∀ f', f' ≠ f →
        lookupFile (setFile (eraseFile fs src f) dst f c) src f'
          = lookupFile fs src f' := by
      intro f' hf'
      rw [lookupFile_setFile_other _ _ _ _ _ _ (hsdk f'),
        lookupFile_eraseFile_other _ _ _ _ _ (fun hcon => hf' hcon.2)]
    have h1dst_f : lookupFile (setFile (eraseFile fs src f) dst f c) dst f
        = some c := lookupFile_setFile_same _ _ _ _
    have h1dst : ∀ f', f' ≠ f →
        lookupFile (setFile (eraseFile fs src f) dst f c) dst f'
          = lookupFile fs dst f' := by
      intro f' hf'
      rw [lookupFile_setFile_other _ _ _ _ _ _ (fun hcon => hf' hcon.2),
        lookupFile_eraseFile_other _ _ _ _ _ (fun hcon => hne hcon.1.symm)]
    have h1other : ∀ d f', d ≠ src → d ≠ dst →
        lookupFile (setFile (eraseFile fs src f) dst f c) d f'
          = lookupFile fs d f' := by
      intro d f' hds hdd
      rw [lookupFile_setFile_other _ _ _ _ _ _ (fun hcon => hdd hcon.1),
        lookupFile_eraseFile_other _ _ _ _ _ (fun hcon => hds hcon.1)]
    have hfnotin : f ∉ rest := (List.nodup_cons.mp hnodup).1
    have hrest_nodup : rest.Nodup := (List.nodup_cons.mp hnodup).2
    have hrest_some : ∀ f' ∈ rest,
        (lookupFile (setFile (eraseFile fs src f) dst f c) src f').isSome := by
      intro f' hf'
      have hne' : f' ≠ f := fun hcon => hfnotin (hcon ▸ hf')
      rw [h1src f' hne']
      exact hsome f' (List.mem_cons_of_mem f hf')
    have hrest_complete : ∀ f',
        (lookupFile (setFile (eraseFile fs src f) dst f c) src f').isSome →
          f' ∈ rest := by
      intro f' hf'
      by_cases hne' : f' = f
      · subst hne'
        rw [h1src_f] at hf'
        simp at hf'
      · rw [h1src f' hne'] at hf'
        rcases List.mem_cons.mp (hcomplete f' hf') with hcon | hmem
        · exact absurd hcon hne'
        · exact hmem
    have hrest_noclash : ∀ f' ∈ rest,
        lookupFile (setFile (eraseFile fs src f) dst f c) dst f' = Option.none := by
      intro f' hf'
      have hne' : f' ≠ f := fun hcon => hfnotin (hcon ▸ hf')
      rw [h1dst f' hne']
      exact hnoclash f' (List.mem_cons_of_mem f hf')
    obtain ⟨fs', hrun, hdirs, hwf, hsrcnone, hdstmoved, hdstkept, hother⟩ :=
      ih (setFile (eraseFile fs src f) dst f c) hrest_nodup hrest_some
        hrest_complete hrest_noclash
    refine ⟨fs', ?_, ?_, fun hw => hwf (FSWf_setFile _ _ _ _ (FSWf_eraseFile _ _ _ hw)),
      hsrcnone, ?_, ?_, ?_⟩
    · unfold moveAll
      rw [hstep]
      exact hrun
    · rw [hdirs]
      rfl
    · intro f' c' hc'
      by_cases hne' : f' = f
      · rw [hne'] at hc' ⊢
        rw [hc] at hc'
        injection hc' with hcc
        rw [← hcc, hdstkept f h1src_f, h1dst_f]
      · have hl : lookupFile (setFile (eraseFile fs src f) dst f c) src f'
            = some c' := by rw [h1src f' hne']; exact hc'
        exact hdstmoved f' c' hl
    · intro f' hcnone
      have hne' : f' ≠ f := by
        intro hcon
        subst hcon
        rw [hc] at hcnone
        simp at hcnone
      have h1 : lookupFile (setFile (eraseFile fs src f) dst f c) src f'
          = Option.none := by rw [h1src f' hne']; exact hcnone
      rw [hdstkept f' h1, h1dst f' hne']
    · intro d f' hds hdd
      rw [hother d f' hds hdd, h1other d f' hds hdd]

/-- Full contract of `channelRename`: no-op when the old path is not a
directory; otherwise, provided no file of the old path already has a
same-named file in the new path (the `shutil.move` destination-exists
check), it ensures the new path, moves every file across, removes the
emptied old directory and touches nothing else. -/
theorem channelRename_spec (oldP newP : FsPath) (fs : FS)
    (hne : oldP ≠ newP) (hnp : newP ≠ []) (hwf : FSWf fs)
    (hnoclash : ∀ f ∈ listdir fs oldP, lookupFile fs newP f = Option.none) :
    (isdir fs oldP = false → channelRename oldP newP fs = Except.ok fs) ∧
    (isdir fs oldP = true →
      ∃ fs', channelRename oldP newP fs = Except.ok fs'
        ∧ isdir fs' newP = true
        ∧ isdir fs' oldP = false
        ∧ (∀ f, lookupFile fs' oldP f = Option.none)
        ∧ (∀ f c, lookupFile fs oldP f = some c → lookupFile fs' newP f = some c)
        ∧ (∀ f, lookupFile fs oldP f = Option.none →
            lookupFile fs' newP f = lookupFile fs newP f)
        ∧ (∀ d f, d ≠ oldP → d ≠ newP → lookupFile fs' d f = lookupFile fs d f)
        ∧ FSWf fs') := by
  constructor
  · intro hdir
    unfold channelRename
    rw [if_pos (by simp [hdir])]
  · intro hdir
    have hcond : ¬ ¬ isdir fs oldP = true := by simp [hdir]
    have hwf1 : FSWf (mkdir fs newP) := FSWf_mkdir fs newP hwf
    have hnodup := listdir_nodup (mkdir fs newP) hwf1 oldP
    obtain ⟨fs2, hrun, hdirs2, hwf2, hsrcnone, hmoved, hkept, hother⟩ :=
      moveAll_spec oldP newP hne (listdir (mkdir fs newP) oldP) (mkdir fs newP)
        hnodup
        (fun f hf => (mem_listdir_iff (mkdir fs newP) oldP f).mp hf)
        (fun f hf => (mem_listdir_iff (mkdir fs newP) oldP f).mpr hf)
        (by
          intro f hf
          rw [listdir_mkdir] at hf
          rw [lookupFile_mkdir]
          exact hnoclash f hf)
    have hempty : filesIn fs2 oldP = [] :=
      filesIn_eq_nil_of_lookup_none fs2 oldP hsrcnone
    refine ⟨rmdirDirs fs2 oldP, ?_, ?_, isdir_rmdirDirs_self fs2 oldP, ?_, ?_, ?_, ?_, ?_⟩
    · unfold channelRename
      rw [if_neg hcond]
      simp only [hrun, hempty, List.isEmpty_nil, if_true]
    · rw [isdir_rmdirDirs_other fs2 oldP newP (fun hcon => hne hcon.symm)]
      have h2 : isdir fs2 newP = isdir (mkdir fs newP) newP := by
        unfold isdir
        rw [hdirs2]
      rw [h2]
      exact isdir_mkdir_self fs newP hnp
    · intro f
      rw [lookupFile_rmdirDirs]
      exact hsrcnone f
    · intro f c hc
      rw [lookupFile_rmdirDirs]
      apply hmoved
      rw [lookupFile_mkdir]
      exact hc
    · intro f hc
      rw [lookupFile_rmdirDirs]
      have h1 : lookupFile (mkdir fs newP) oldP f = Option.none := by
        rw [lookupFile_mkdir]
        exact hc
      rw [hkept f h1, lookupFile_mkdir]
    · intro d f hdo hdn
      rw [lookupFile_rmdirDirs, hother d f hdo hdn, lookupFile_mkdir]
    · exact FSWf_rmdirDirs _ _ (hwf2 hwf1)

/-- Claim C7, counterexample: when the new path already contains a file with
the same name as one in the old path (possible after a prior rename in the
same run), the `shutil.move` destination-exists check fires: `channelRename`
aborts with `shutil.Error` instead of tolerating the pre-existing file and
moving every entry across. -/
theorem channelRename_clash_counterexample :
    isdir clashFS ["p", "foo"] = true ∧
      channelRename ["p", "foo"] ["p", "bar"] clashFS
        = Except.error FsErr.moveClash :=
  ⟨rfl, rfl⟩

/-- Claim C7 (amended): `channelRename` is a no-op (not an error) when the
old path is not a directory; otherwise, provided no file of the old path has
a same-named file already present in the new path, it succeeds: it ensures
the new path exists as a directory, moves every file of the old path into
the new path with contents unchanged, removes the now-empty old directory
and leaves every other directory untouched.  It therefore tolerates the new
path already existing with differently-named files from a prior rename in
the same run; on a name clash `shutil.move` raises and the rename aborts. -/
theorem channelRename_contract (oldP newP : FsPath) (fs : FS)
    (hne : oldP ≠ newP) (hnp : newP ≠ []) (hwf : FSWf fs)
    (hnoclash : ∀ f ∈ listdir fs oldP, lookupFile fs newP f = Option.none) :
    (isdir fs oldP = false → channelRename oldP newP fs = Except.ok fs) ∧
    (isdir fs oldP = true →
      ∃ fs', channelRename oldP newP fs = Except.ok fs'
        ∧ isdir fs' newP = true
        ∧ isdir fs' oldP = false
        ∧ (∀ f, lookupFile fs' oldP f = Option.none)
        ∧ (∀ f c, lookupFile fs oldP f = some c → lookupFile fs' newP f = some c)
        ∧ (∀ f, lookupFile fs oldP f = Option.none →
            lookupFile fs' newP f = lookupFile fs newP f)
        ∧ (∀ d f, d ≠ oldP → d ≠ newP → lookupFile fs' d f = lookupFile fs d f)
        ∧ FSWf fs') :=
  channelRename_spec oldP newP fs hne hnp hwf hnoclash

theorem FSWf_writeMessageFile (fs : FS) (fileName : FsPath) (msgs : List Msg)
    (h : FSWf fs) : FSWf (writeMessageFile fs fileName msgs) := by
  unfold writeMessageFile
  apply FSWf_setFile
  split
  · exact FSWf_mkdir _ _ h
  · exact h

/-- The partitioning loop, on every run it completes: whenever the loop
returns `Except.ok` (it can abort mid-stream on a malformed timestamp, a
missing rename field, or a `shutil` error inside `channelRename`), its write
trace flattens back to bucket-then-stream — each message written exactly
once, in order — and every flushed bucket holds exactly messages of the day
key that names its file. -/
theorem parseLoop_spec (parentDir roomType flag : String) :
    ∀ (msgs : List Msg) (cfd : String) (cms : List Msg) (room : String)
      (fs fs' : FS) (tr : List WriteEv),
      (∀ m ∈ cms, msgDay m = some cfd) →
      parseLoop parentDir roomType flag msgs cfd cms room fs = Except.ok (fs', tr) →
      (tr.map (fun ev => ev.contents)).flatten = cms ++ msgs
        ∧ (∀ ev ∈ tr, ∀ m ∈ ev.contents, msgDay m = some ev.date) := by
  intro msgs
  induction msgs with
  | nil =>
    intro cfd cms room fs fs' tr hbucket hrun
    simp only [parseLoop, Except.ok.injEq, Prod.mk.injEq] at hrun
    obtain ⟨-, htr⟩ := hrun
    subst htr
    refine ⟨?_, ?_⟩
    · simp
    · intro ev hev m hm
      simp only [List.mem_singleton] at hev
      subst hev
      exact hbucket m hm
  | cons message rest ih =>
    intro cfd cms room fs fs' tr hbucket hrun
    cases hts : parseTimeStamp message.ts with
    | malformed =>
      simp only [parseLoop, hts] at hrun
      exact Except.noConfusion hrun
    | noneResult =>
      simp only [parseLoop, hts] at hrun
      exact Except.noConfusion hrun
    | instant t =>
      simp only [parseLoop, hts] at hrun
      have hday : msgDay message = some (formatDay t) := by
        unfold msgDay tsDayKey
        rw [hts]
      by_cases hflush : formatDay t ≠ cfd
      · rw [if_pos hflush] at hrun
        by_cases hren : roomType ≠ "im" ∧ message.subtype = some flag
        · rw [if_pos hren] at hrun
          cases hnn : message.name with
          | none =>
            simp only [hnn] at hrun
            exact Except.noConfusion hrun
          | some nn =>
            cases holdN : message.old_name with
            | none =>
              simp only [hnn, holdN] at hrun
              exact Except.noConfusion hrun
            | some oldN =>
              simp only [hnn, holdN] at hrun
              cases hcr : channelRename [parentDir, oldN] [parentDir, nn]
                  (writeMessageFile fs [parentDir, room, cfd ++ ".json"] cms) with
              | error e =>
                simp only [hcr] at hrun
                exact Except.noConfusion hrun
              | ok fs2 =>
                simp only [hcr] at hrun
                cases hrec : parseLoop parentDir roomType flag rest (formatDay t)
                    [message] nn fs2 with
                | error e =>
                  simp only [hrec] at hrun
                  exact Except.noConfusion hrun
                | ok r =>
                  simp only [hrec, Except.ok.injEq, Prod.mk.injEq] at hrun
                  obtain ⟨-, htr⟩ := hrun
                  subst htr
                  obtain ⟨hjoin, hdays⟩ := ih (formatDay t) [message] nn fs2 r.1 r.2
                    (by
                      intro m hm
                      simp only [List.mem_singleton] at hm
                      subst hm
                      exact hday)
                    hrec
                  refine ⟨?_, ?_⟩
                  · simp only [List.map_cons, List.flatten_cons]
                    rw [hjoin, List.singleton_append]
                  · intro ev hev m hm
                    rcases List.mem_cons.mp hev with rfl | hev'
                    · exact hbucket m hm
                    · exact hdays ev hev' m hm
        · rw [if_neg hren] at hrun
          cases hrec : parseLoop parentDir roomType flag rest (formatDay t) [message]
              room (writeMessageFile fs [parentDir, room, cfd ++ ".json"] cms) with
          | error e =>
            simp only [hrec] at hrun
            exact Except.noConfusion hrun
          | ok r =>
            simp only [hrec, Except.ok.injEq, Prod.mk.injEq] at hrun
            obtain ⟨-, htr⟩ := hrun
            subst htr
            obtain ⟨hjoin, hdays⟩ := ih (formatDay t) [message] room
              (writeMessageFile fs [parentDir, room, cfd ++ ".json"] cms) r.1 r.2
              (by
                intro m hm
                simp only [List.mem_singleton] at hm
                subst hm
                exact hday)
              hrec
            refine ⟨?_, ?_⟩
            · simp only [List.map_cons, List.flatten_cons]
              rw [hjoin, List.singleton_append]
            · intro ev hev m hm
              rcases List.mem_cons.mp hev with rfl | hev'
              · exact hbucket m hm
              · exact hdays ev hev' m hm
      · rw [if_neg hflush] at hrun
        have hcfd : formatDay t = cfd := not_not.mp hflush
        have hbucket' : ∀ m ∈ cms ++ [message], msgDay m = some cfd := by
          intro m hm
          rcases List.mem_append.mp hm with hm' | hm'
          · exact hbucket m hm'
          · simp only [List.mem_singleton] at hm'
            subst hm'
            rw [hday, hcfd]
        by_cases hren : roomType ≠ "im" ∧ message.subtype = some flag
        · rw [if_pos hren] at hrun
          cases hnn : message.name with
          | none =>
            simp only [hnn] at hrun
            exact Except.noConfusion hrun
          | some nn =>
            cases holdN : message.old_name with
            | none =>
              simp only [hnn, holdN] at hrun
              exact Except.noConfusion hrun
            | some oldN =>
              simp only [hnn, holdN] at hrun
              cases hcr : channelRename [parentDir, oldN] [parentDir, nn] fs with
              | error e =>
                simp only [hcr] at hrun
                exact Except.noConfusion hrun
              | ok fs2 =>
                simp only [hcr] at hrun
                obtain ⟨hjoin, hdays⟩ := ih cfd (cms ++ [message]) nn fs2 fs' tr
                  hbucket' hrun
                refine ⟨?_, hdays⟩
                rw [hjoin, List.append_assoc, List.singleton_append]
        · rw [if_neg hren] at hrun
          obtain ⟨hjoin, hdays⟩ := ih cfd (cms ++ [message]) room fs fs' tr
            hbucket' hrun
          refine ⟨?_, hdays⟩
          rw [hjoin, List.append_assoc, List.singleton_append]

/-- Claim C4, counterexample: in a stream where a same-day rename (to `bar`)
follows a plain message processed while the directory was `foo`, the plain
message's bucket is flushed after the rename and written under `bar`, not
under the directory name in effect when that message was processed. -/
theorem mid_day_rename_counterexample :
    (parseMessages "channel" "foo" midDayRenameStream "channel" fooFS).map Prod.snd
      = Except.ok
          [⟨["channel", "foo"], "", []⟩,
           ⟨["channel", "bar"], "2020-01-01",
            [msgAt "1577836800.0", renameMsgAt "1577836801.0" "foo" "bar"]⟩] ∧
      (["channel", "bar"] : FsPath) ≠ ["channel", "foo"] :=
  ⟨rfl, by decide⟩

/-- Claim C4 (amended): for every input stream accepted by `parseMessages`
(that is, on every run it completes — it aborts mid-stream on a malformed
timestamp, a missing rename field, or a `shutil` error inside
`channelRename`, and then later messages are not written), every message is
written exactly once (the write trace flattens back to the input stream, in
order), into the file named by its own day key, under the conversation
directory name in effect at the time its bucket is flushed — so a mid-day
rename also redirects same-day messages buffered before the rename event. -/
theorem parseMessages_written_once (parentDir roomDir roomType : String)
    (messages : List Msg) (fs fs' : FS) (tr : List WriteEv)
    (hrun : parseMessages parentDir roomDir messages roomType fs
      = Except.ok (fs', tr)) :
    (tr.map (fun ev => ev.contents)).flatten = messages
      ∧ (∀ ev ∈ tr, ∀ m ∈ ev.contents, msgDay m = some ev.date) := by
  obtain ⟨hjoin, hdays⟩ := parseLoop_spec parentDir roomType
    (roomType ++ "_name") messages "" [] roomDir fs fs' tr (by simp) hrun
  exact ⟨by simpa using hjoin, hdays⟩

/-- Claim C4 (amended), witness at the mid-day-rename stream, which the
partitioning accepts. -/
theorem parseMessages_written_once_witness :
    (([⟨["channel", "foo"], "", []⟩,
       ⟨["channel", "bar"], "2020-01-01",
        [msgAt "1577836800.0", renameMsgAt "1577836801.0" "foo" "bar"]⟩]
         : List WriteEv).map (fun ev => ev.contents)).flatten = midDayRenameStream
      ∧ (∀ ev ∈ ([⟨["channel", "foo"], "", []⟩,
           ⟨["channel", "bar"], "2020-01-01",
            [msgAt "1577836800.0", renameMsgAt "1577836801.0" "foo" "bar"]⟩]
             : List WriteEv), ∀ m ∈ ev.contents, msgDay m = some ev.date) :=
  parseMessages_written_once "channel" "foo" "channel" midDayRenameStream fooFS _
    [⟨["channel", "foo"], "", []⟩,
     ⟨["channel", "bar"], "2020-01-01",
      [msgAt "1577836800.0", renameMsgAt "1577836801.0" "foo" "bar"]⟩]
    rfl

/-- A formatted day key is never the empty-string sentinel. -/
theorem formatDay_ne_empty (t : Int) : formatDay t ≠ "" := by
  unfold formatDay
  intro hcon
  have hdata := congrArg String.data hcon
  rw [String.data_append, String.data_append] at hdata
  have hdash : ("-" : String).data = ['-'] := rfl
  rw [hdash] at hdata
  simp at hdata

theorem empty_string_lt (s : String) (h : s ≠ "") : "" < s := by
  rw [String.lt_iff_toList_lt]
  cases s with
  | mk data =>
    cases data with
    | nil => exact absurd rfl h
    | cons c cs => exact List.nil_lt_cons c cs

/-- Unpack a successful day-key decode. -/
theorem msgDay_some_elim (m : Msg) (d : String) (h : msgDay m = some d) :
    ∃ t, parseTimeStamp m.ts = TsResult.instant t ∧ formatDay t = d := by
  unfold msgDay tsDayKey at h
  cases hc : parseTimeStamp m.ts with
  | malformed => rw [hc] at h; simp at h
  | noneResult => rw [hc] at h; simp at h
  | instant t =>
    rw [hc] at h
    simp only [Option.some.injEq] at h
    exact ⟨t, rfl, h⟩

/-- The trailing flush after the loop. -/
theorem parseLoop_nil (p rt flag cfd : String) (cms : List Msg) (room : String)
    (fs : FS) :
    parseLoop p rt flag [] cfd cms room fs
      = Except.ok (writeMessageFile fs [p, room, cfd ++ ".json"] cms,
          [⟨[p, room], cfd, cms⟩]) := rfl

/-- One loop iteration on a day boundary for a non-rename message: flush the
bucket, then continue with the new day and the message as the new bucket. -/
theorem parseLoop_step_flush {p rt flag : String} {m : Msg} {rest : List Msg}
    {cfd : String} {cms : List Msg} {room : String} {fs : FS} (t : Int)
    (hts : parseTimeStamp m.ts = TsResult.instant t)
    (hflush : formatDay t ≠ cfd)
    (hnoren : ¬ (rt ≠ "im" ∧ m.subtype = some flag)) :
    parseLoop p rt flag (m :: rest) cfd cms room fs
      = (parseLoop p rt flag rest (formatDay t) [m] room
          (writeMessageFile fs [p, room, cfd ++ ".json"] cms)).map
          (fun r => (r.1, ⟨[p, room], cfd, cms⟩ :: r.2)) := by
  simp only [parseLoop, hts]
  rw [if_pos hflush, if_neg hnoren]
  cases parseLoop p rt flag rest (formatDay t) [m] room
      (writeMessageFile fs [p, room, cfd ++ ".json"] cms) with
  | error e => rfl
  | ok r => rfl

/-- One loop iteration inside a day for a non-rename message: append to the
current bucket. -/
theorem parseLoop_step_append {p rt flag : String} {m : Msg} {rest : List Msg}
    {cfd : String} {cms : List Msg} {room : String} {fs : FS} (t : Int)
    (hts : parseTimeStamp m.ts = TsResult.instant t)
    (hsame : formatDay t = cfd)
    (hnoren : ¬ (rt ≠ "im" ∧ m.subtype = some flag)) :
    parseLoop p rt flag (m :: rest) cfd cms room fs
      = parseLoop p rt flag rest cfd (cms ++ [m]) room fs := by
  simp only [parseLoop, hts]
  rw [if_neg (fun hc => hc hsame), if_neg hnoren]

/-- Claim C2, counterexample: on a stream with day keys d1,d1,d2,d2,d2,d3
the partitioning writes to 4 distinct files, not 3 — the sentinel
empty-string day file precedes the 3 day files. -/
theorem three_day_partition_counterexample :
    (parseMessages "channel" "foo" threeDayStream "channel" fooFS).map
        (fun r => (r.2.map (fun ev => (ev.dir, ev.date))).dedup.length)
      = Except.ok 4 ∧ (4 : Nat) ≠ 3 :=
  ⟨rfl, by decide⟩

/-- Claim C2 (amended): for an ordered input of six messages with day keys
d1,d1,d2,d2,d2,d3 (d1 < d2 < d3, pairwise distinct) and no rename events,
partition performs exactly 4 writes to 4 distinct files — the sentinel
empty-string file (empty) followed by the 3 day files, each holding exactly
the messages of its day — in increasing day order. -/
theorem three_day_partition (parentDir roomDir roomType : String)
    (m1 m2 m3 m4 m5 m6 : Msg) (d1 d2 d3 : String) (fs : FS)
    (h1 : msgDay m1 = some d1) (h2 : msgDay m2 = some d1)
    (h3 : msgDay m3 = some d2) (h4 : msgDay m4 = some d2)
    (h5 : msgDay m5 = some d2) (h6 : msgDay m6 = some d3)
    (h12 : d1 ≠ d2) (h13 : d1 ≠ d3) (h23 : d2 ≠ d3)
    (hlt12 : d1 < d2) (hlt23 : d2 < d3)
    (hnoren : ∀ m ∈ [m1, m2, m3, m4, m5, m6],
      ¬ (roomType ≠ "im" ∧ m.subtype = some (roomType ++ "_name"))) :
    ((parseMessages parentDir roomDir [m1, m2, m3, m4, m5, m6] roomType fs).map
        Prod.snd
      = Except.ok
          [⟨[parentDir, roomDir], "", []⟩,
           ⟨[parentDir, roomDir], d1, [m1, m2]⟩,
           ⟨[parentDir, roomDir], d2, [m3, m4, m5]⟩,
           ⟨[parentDir, roomDir], d3, [m6]⟩])
      ∧ (([([parentDir, roomDir], ""), ([parentDir, roomDir], d1),
           ([parentDir, roomDir], d2), ([parentDir, roomDir], d3)]
            : List (FsPath × String)).dedup.length = 4)
      ∧ List.Chain' (fun a b : String => a < b) ["", d1, d2, d3] := by
  obtain ⟨t1, hts1, hfd1⟩ := msgDay_some_elim m1 d1 h1
  obtain ⟨t2, hts2, hfd2⟩ := msgDay_some_elim m2 d1 h2
  obtain ⟨t3, hts3, hfd3⟩ := msgDay_some_elim m3 d2 h3
  obtain ⟨t4, hts4, hfd4⟩ := msgDay_some_elim m4 d2 h4
  obtain ⟨t5, hts5, hfd5⟩ := msgDay_some_elim m5 d2 h5
  obtain ⟨t6, hts6, hfd6⟩ := msgDay_some_elim m6 d3 h6
  have hd1ne : d1 ≠ "" := hfd1 ▸ formatDay_ne_empty t1
  have hd2ne : d2 ≠ "" := hfd3 ▸ formatDay_ne_empty t3
  have hd3ne : d3 ≠ "" := hfd6 ▸ formatDay_ne_empty t6
  refine ⟨?_, ?_, ?_⟩
  · unfold parseMessages
    rw [parseLoop_step_flush t1 hts1 (by rw [hfd1]; exact hd1ne)
        (hnoren m1 (by simp))]
    rw [hfd1]
    rw [parseLoop_step_append t2 hts2 hfd2 (hnoren m2 (by simp))]
    rw [parseLoop_step_flush t3 hts3 (by rw [hfd3]; exact Ne.symm h12)
        (hnoren m3 (by simp))]
    rw [hfd3]
    rw [parseLoop_step_append t4 hts4 hfd4 (hnoren m4 (by simp))]
    rw [parseLoop_step_append t5 hts5 hfd5 (hnoren m5 (by simp))]
    rw [parseLoop_step_flush t6 hts6 (by rw [hfd6]; exact Ne.symm h23)
        (hnoren m6 (by simp))]
    rw [hfd6]
    rw [parseLoop_nil]
    simp [Except.map]
  · have hnodup : ([([parentDir, roomDir], ""), ([parentDir, roomDir], d1),
        ([parentDir, roomDir], d2), ([parentDir, roomDir], d3)]
          : List (FsPath × String)).Nodup := by
      refine List.nodup_cons.mpr ⟨?_, List.nodup_cons.mpr ⟨?_,
        List.nodup_cons.mpr ⟨?_, List.nodup_singleton _⟩⟩⟩
      · intro hmem
        rcases List.mem_cons.mp hmem with hc | hmem
        · exact hd1ne (congrArg Prod.snd hc).symm
        rcases List.mem_cons.mp hmem with hc | hmem
        · exact hd2ne (congrArg Prod.snd hc).symm
        rcases List.mem_cons.mp hmem with hc | hmem
        · exact hd3ne (congrArg Prod.snd hc).symm
        · simp at hmem
      · intro hmem
        rcases List.mem_cons.mp hmem with hc | hmem
        · exact h12 (congrArg Prod.snd hc)
        rcases List.mem_cons.mp hmem with hc | hmem
        · exact h13 (congrArg Prod.snd hc)
        · simp at hmem
      · intro hmem
        rcases List.mem_cons.mp hmem with hc | hmem
        · exact h23 (congrArg Prod.snd hc)
        · simp at hmem
    rw [List.dedup_eq_self.mpr hnodup]
    rfl
  · simp only [List.chain'_cons, List.chain'_singleton, and_true]
    exact ⟨empty_string_lt d1 hd1ne, hlt12, hlt23⟩

/-- Claim C2 (amended), witness at three concrete days in January 2020. -/
theorem three_day_partition_witness :
    ((parseMessages "channel" "foo" threeDayStream "channel" fooFS).map Prod.snd
      = Except.ok
          [⟨["channel", "foo"], "", []⟩,
           ⟨["channel", "foo"], "2020-01-01",
            [msgAt "1577836800.0", msgAt "1577836801.0"]⟩,
           ⟨["channel", "foo"], "2020-01-02",
            [msgAt "1577923200.0", msgAt "1577923201.0", msgAt "1577923202.0"]⟩,
           ⟨["channel", "foo"], "2020-01-03", [msgAt "1578009600.0"]⟩])
      ∧ (([(["channel", "foo"], ""), (["channel", "foo"], "2020-01-01"),
           (["channel", "foo"], "2020-01-02"), (["channel", "foo"], "2020-01-03")]
            : List (FsPath × String)).dedup.length = 4)
      ∧ List.Chain' (fun a b : String => a < b)
          ["", "2020-01-01", "2020-01-02", "2020-01-03"] :=
  three_day_partition "channel" "foo" "channel"
    (msgAt "1577836800.0") (msgAt "1577836801.0") (msgAt "1577923200.0")
    (msgAt "1577923201.0") (msgAt "1577923202.0") (msgAt "1578009600.0")
    "2020-01-01" "2020-01-02" "2020-01-03" fooFS
    (by decide) (by decide) (by decide) (by decide) (by decide) (by decide)
    (by decide) (by decide) (by decide)
    (by rw [String.lt_iff_toList_lt]; decide)
    (by rw [String.lt_iff_toList_lt]; decide)
    (by decide)

/-- Claim C6: with messages 1-2 on 2020-01-01, a rename of `foo` to `bar`
carried by message 3 (first message of 2020-01-02), and messages 4-5 on
2020-01-02 / 2020-01-03, after partitioning completes directory `foo` no
longer exists and directory `bar` holds the relocated `2020-01-01.json`
(messages 1-2) plus the subsequent day files of messages 3-5. -/
theorem rename_relocation_scenario :
    (parseMessages "channel" "foo" renameStream "channel" fooFS).map
        (fun r => (isdir r.1 ["channel", "foo"],
                   isdir r.1 ["channel", "bar"],
                   lookupFile r.1 ["channel", "bar"] "2020-01-01.json",
                   lookupFile r.1 ["channel", "bar"] "2020-01-02.json",
                   lookupFile r.1 ["channel", "bar"] "2020-01-03.json"))
      = Except.ok (false, true,
          some [msgAt "1577836800.0", msgAt "1577836801.0"],
          some [renameMsgAt "1577923200.0" "foo" "bar", msgAt "1577923201.0"],
          some [msgAt "1578009600.0"]) := rfl

/-- Claim C7 (amended), witness: renaming `p/foo` to `p/bar` when `p/bar`
already holds a differently-named file from a prior rename. -/
theorem channelRename_contract_witness :
    (isdir fooBarFS ["p", "foo"] = false →
      channelRename ["p", "foo"] ["p", "bar"] fooBarFS = Except.ok fooBarFS) ∧
    (isdir fooBarFS ["p", "foo"] = true →
      ∃ fs', channelRename ["p", "foo"] ["p", "bar"] fooBarFS = Except.ok fs'
        ∧ isdir fs' ["p", "bar"] = true
        ∧ isdir fs' ["p", "foo"] = false
        ∧ (∀ f, lookupFile fs' ["p", "foo"] f = Option.none)
        ∧ (∀ f c, lookupFile fooBarFS ["p", "foo"] f = some c →
            lookupFile fs' ["p", "bar"] f = some c)
        ∧ (∀ f, lookupFile fooBarFS ["p", "foo"] f = Option.none →
            lookupFile fs' ["p", "bar"] f = lookupFile fooBarFS ["p", "bar"] f)
        ∧ (∀ d f, d ≠ ["p", "foo"] → d ≠ ["p", "bar"] →
            lookupFile fs' d f = lookupFile fooBarFS d f)
        ∧ FSWf fs') :=
  channelRename_contract ["p", "foo"] ["p", "bar"] fooBarFS
    (by decide) (by decide) (by decide) (by decide)

end SlackHistory
